import Mathlib

/-!
Verification of the scribbledb diagram layout and interactive-geometry engine.

The definitions below are a shallow embedding of the TypeScript sources:
they translate the pure geometry and graph-building code of
`src/lib/dbml/layout.ts` and the interactive offset engine of
`src/lib/components/Diagram.svelte` into Lean.  JavaScript numbers are
modelled as exact rationals, JS objects used as string-keyed maps are
modelled as association lists in which the most recent binding wins, and
the external ELK layout solver result is modelled as explicit input data.
-/

namespace ScribbleDB

open scoped List

/-- A 2-D point with rational coordinates, modelling the JS `{x, y}` pairs. -/
structure Point where
  x : ℚ
  y : ℚ
deriving DecidableEq, Repr

/-- A drag displacement `{dx, dy}` as stored in `nodeOffsets`. -/
structure Offset where
  dx : ℚ
  dy : ℚ
deriving DecidableEq, Repr

/-- The zero displacement, the default for an absent `nodeOffsets` entry. -/
def Offset.zero : Offset := ⟨0, 0⟩

/-- The displacement map `nodeOffsets : Record<string, {dx, dy}>` of
Diagram.svelte, modelled as an association list where the first matching
binding wins (an update conses a fresh binding, modelling JS spread). -/
abbrev DMap := List (String × Offset)

/-- Lookup in the displacement map; an absent entry reads as `(0, 0)`,
modelling `nodeOffsets[id]?.dx ?? 0` and the `?? { dx: 0, dy: 0 }` default. -/
def lookupOff (m : DMap) (id : String) : Offset :=
  ((m.find? (fun p => p.1 = id)).map Prod.snd).getD Offset.zero

/-- Update of the displacement map, modelling
`nodeOffsets = { ...nodeOffsets, [id]: o }`. -/
def updateOff (m : DMap) (id : String) (o : Offset) : DMap := (id, o) :: m

/-- A parsed schema column (parser.ts `SchemaColumn`). -/
structure SchemaColumn where
  name : String
  type : String
  pk : Bool
  unique : Bool
  notNull : Bool
  increment : Bool
  defaultValue : Option String
  note : Option String
deriving DecidableEq, Repr

/-- A parsed schema table (parser.ts `SchemaTable`). -/
structure SchemaTable where
  name : String
  schema : String
  columns : List SchemaColumn
  note : Option String
  headerColor : Option String
deriving DecidableEq, Repr

/-- A parsed reference (parser.ts `SchemaRef`). -/
structure SchemaRef where
  name : String
  fromSchema : String
  fromTable : String
  fromColumns : List String
  fromRelation : String
  toSchema : String
  toTable : String
  toColumns : List String
  toRelation : String
  onDelete : Option String
  onUpdate : Option String
deriving DecidableEq, Repr

/-- A member entry of a table group (parser.ts `{schemaName, tableName}`). -/
structure GroupMember where
  schemaName : String
  tableName : String
deriving DecidableEq, Repr

/-- A parsed table group (parser.ts `SchemaTableGroup`). -/
structure SchemaTableGroup where
  name : String
  tables : List GroupMember
  color : Option String
  note : Option String
deriving DecidableEq, Repr

/-- layout.ts `LayoutNode`: a positioned table box. -/
structure LayoutNode where
  id : String
  x : ℚ
  y : ℚ
  width : ℚ
  height : ℚ
  table : SchemaTable
deriving DecidableEq, Repr

/-- layout.ts `LayoutEdge`: a routed polyline tagged with its reference. -/
structure LayoutEdge where
  id : String
  ref : SchemaRef
  points : List Point
deriving DecidableEq, Repr

/-- layout.ts `LayoutGroup`: a positioned group bounding box. -/
structure LayoutGroup where
  id : String
  x : ℚ
  y : ℚ
  width : ℚ
  height : ℚ
  name : String
  color : Option String
deriving DecidableEq, Repr

/-- layout.ts `LayoutResult`. -/
structure LayoutResult where
  nodes : List LayoutNode
  edges : List LayoutEdge
  groups : List LayoutGroup
  width : ℚ
  height : ℚ
deriving DecidableEq, Repr

/-! ## The interactive offset engine (Diagram.svelte) -/

/-- Diagram.svelte `edgeNodeIds(...).fromId`: the string
`edge.ref.fromSchema + "." + edge.ref.fromTable`. -/
def edgeFromId (edge : LayoutEdge) : String :=
  edge.ref.fromSchema ++ "." ++ edge.ref.fromTable

/-- Diagram.svelte `edgeNodeIds(...).toId`. -/
def edgeToId (edge : LayoutEdge) : String :=
  edge.ref.toSchema ++ "." ++ edge.ref.toTable

/-- Diagram.svelte `nodeX`: base x plus the drag offset of the node. -/
def nodeX (m : DMap) (node : LayoutNode) : ℚ :=
  node.x + (lookupOff m node.id).dx

/-- Diagram.svelte `nodeY`: base y plus the drag offset of the node. -/
def nodeY (m : DMap) (node : LayoutNode) : ℚ :=
  node.y + (lookupOff m node.id).dy

/-- Segment classification from `adjustedPoints`:
`Math.abs(q.x - p.x) >= Math.abs(q.y - p.y)` marks the segment horizontal. -/
def segIsH (p q : Point) : Bool := decide (|q.y - p.y| ≤ |q.x - p.x|)

/-- One propagation step of `adjustedPoints`: a horizontal segment carries
only `dy` forward, a vertical segment carries only `dx`. -/
def carryStep (isH : Bool) (o : Offset) : Offset :=
  if isH then ⟨0, o.dy⟩ else ⟨o.dx, 0⟩

/-- The forward offset array `fwd` of `adjustedPoints`: `fwd[0]` is the
source-node offset and each later entry is the previous one carried across
the segment just traversed. -/
def fwdOffsets (o : Offset) : List Point → List Offset
  | [] => []
  | [_] => [o]
  | p :: q :: rest => o :: fwdOffsets (carryStep (segIsH p q) o) (q :: rest)

/-- The backward offset array `bwd` of `adjustedPoints`: the last entry is
the target-node offset and each earlier entry is the next one carried back
across the segment between them. -/
def bwdOffsets (o : Offset) : List Point → List Offset
  | [] => []
  | [_] => [o]
  | p :: q :: rest =>
      let tl := bwdOffsets o (q :: rest)
      carryStep (segIsH p q) (tl.headD Offset.zero) :: tl

/-- The final combination step of `adjustedPoints`: each point is moved by
the sum of its forward and backward contributions. -/
def offsetPoint (p : Point) (f b : Offset) : Point :=
  ⟨p.x + f.dx + b.dx, p.y + f.dy + b.dy⟩

/-- Pointwise combination of the base points with the `fwd` and `bwd`
offset arrays (the final `pts.map((pt, i) => ...)` of `adjustedPoints`). -/
def combinePoints : List Point → List Offset → List Offset → List Point
  | p :: ps, f :: fs, b :: bs => offsetPoint p f b :: combinePoints ps fs bs
  | _, _, _ => []

/-- The displacement-adjustment body of `adjustedPoints` after the
all-offsets-zero early return: the degenerate, 2-point, and general cases. -/
def adjustCore (fromOff toOff : Offset) : List Point → List Point
  | [] => []
  | [p] => [⟨p.x + fromOff.dx, p.y + fromOff.dy⟩]
  | [a, b] =>
      let p0 : Point := ⟨a.x + fromOff.dx, a.y + fromOff.dy⟩
      let p1 : Point := ⟨b.x + toOff.dx, b.y + toOff.dy⟩
      if segIsH a b then
        let midX := (p0.x + p1.x) / 2
        [p0, ⟨midX, p0.y⟩, ⟨midX, p1.y⟩, p1]
      else
        let midY := (p0.y + p1.y) / 2
        [p0, ⟨p0.x, midY⟩, ⟨p1.x, midY⟩, p1]
  | pts => combinePoints pts (fwdOffsets fromOff pts) (bwdOffsets toOff pts)

/-- Diagram.svelte `adjustedPoints`: recompute the rendered polyline of an
edge from the base polyline and the displacement map. -/
def adjustedPoints (m : DMap) (edge : LayoutEdge) : List Point :=
  let fromOff := lookupOff m (edgeFromId edge)
  let toOff := lookupOff m (edgeToId edge)
  if fromOff.dx = 0 ∧ fromOff.dy = 0 ∧ toOff.dx = 0 ∧ toOff.dy = 0 then
    edge.points
  else
    adjustCore fromOff toOff edge.points

/-- Two points are axis-aligned when they share a coordinate. -/
def Aligned (p q : Point) : Prop := p.x = q.x ∨ p.y = q.y

instance (p q : Point) : Decidable (Aligned p q) :=
  inferInstanceAs (Decidable (_ ∨ _))

/-- A polyline is orthogonal when every consecutive point pair is
axis-aligned. -/
def OrthoPolyline (pts : List Point) : Prop := List.Chain' Aligned pts

/-- Executable orthogonality check, used to decide `OrthoPolyline` on
concrete polylines. -/
def orthoCheck : List Point → Bool
  | [] => true
  | [_] => true
  | p :: q :: rest => decide (Aligned p q) && orthoCheck (q :: rest)

theorem orthoCheck_iff (pts : List Point) :
    orthoCheck pts = true ↔ OrthoPolyline pts := by
  induction pts with
  | nil => simp [orthoCheck, OrthoPolyline]
  | cons p rest ih =>
    cases rest with
    | nil => simp [orthoCheck, OrthoPolyline]
    | cons q rest' =>
      simp only [orthoCheck, Bool.and_eq_true, decide_eq_true_eq,
        OrthoPolyline, List.chain'_cons] at ih ⊢
      exact and_congr Iff.rfl ih

instance (pts : List Point) : Decidable (OrthoPolyline pts) :=
  decidable_of_iff _ (orthoCheck_iff pts)

/-! ## C1: displacement adjustment preserves orthogonality -/

theorem segIsH_of_y_eq {p q : Point} (h : p.y = q.y) : segIsH p q = true := by
  simp [segIsH, h]

theorem y_eq_of_x_eq_of_segIsH {p q : Point} (hx : p.x = q.x)
    (hs : segIsH p q = true) : p.y = q.y := by
  simp only [segIsH, decide_eq_true_eq, hx, sub_self, abs_zero] at hs
  have := abs_nonneg (q.y - p.y)
  have hz : |q.y - p.y| = 0 := le_antisymm hs this
  have := abs_eq_zero.mp hz
  linarith

/-- The one-step alignment argument used in the general case of
`adjustedPoints`: shifting both ends of an axis-aligned segment by offsets
related through `carryStep` keeps the segment axis-aligned. -/
theorem aligned_offsetPoint_carry (p q : Point) (f h : Offset)
    (hpq : Aligned p q) :
    Aligned (offsetPoint p f (carryStep (segIsH p q) h))
            (offsetPoint q (carryStep (segIsH p q) f) h) := by
  rcases hpq with hx | hy
  · by_cases hs : segIsH p q = true
    · have hyeq : p.y = q.y := y_eq_of_x_eq_of_segIsH hx hs
      right
      simp [offsetPoint, carryStep, hs, hyeq]
    · have hs' : segIsH p q = false := by
        simpa using hs
      left
      simp [offsetPoint, carryStep, hs', hx]
  · have hs : segIsH p q = true := segIsH_of_y_eq hy
    right
    simp [offsetPoint, carryStep, hs, hy]

/-- Head of the combined polyline in the general case: the first point is
the first base point moved by the head forward offset and the head backward
offset. -/
theorem combinePoints_head (q : Point) (rest : List Point) (f t : Offset) :
    (combinePoints (q :: rest) (fwdOffsets f (q :: rest))
        (bwdOffsets t (q :: rest))).head? =
      some (offsetPoint q f ((bwdOffsets t (q :: rest)).headD Offset.zero)) := by
  cases rest <;> rfl

/-- Orthogonality is preserved by the forward/backward combination of the
general case of `adjustedPoints`. -/
theorem combinePoints_chain (t : Offset) (pts : List Point) :
    ∀ f : Offset, OrthoPolyline pts →
      OrthoPolyline (combinePoints pts (fwdOffsets f pts) (bwdOffsets t pts)) := by
  induction pts with
  | nil => intro f _; exact List.chain'_nil
  | cons p rest ih =>
    intro f hch
    cases rest with
    | nil =>
      simp [combinePoints, fwdOffsets, bwdOffsets, OrthoPolyline]
    | cons q rest' =>
      have hpq : Aligned p q := (List.chain'_cons.mp hch).1
      have htail : List.Chain' Aligned (q :: rest') := (List.chain'_cons.mp hch).2
      have hunfold : combinePoints (p :: q :: rest')
            (fwdOffsets f (p :: q :: rest')) (bwdOffsets t (p :: q :: rest')) =
          offsetPoint p f (carryStep (segIsH p q)
              ((bwdOffsets t (q :: rest')).headD Offset.zero)) ::
            combinePoints (q :: rest')
              (fwdOffsets (carryStep (segIsH p q) f) (q :: rest'))
              (bwdOffsets t (q :: rest')) := rfl
      rw [OrthoPolyline, hunfold, List.chain'_cons']
      constructor
      · intro b hb
        rw [combinePoints_head] at hb
        simp only [Option.mem_def, Option.some.injEq] at hb
        subst hb
        exact aligned_offsetPoint_carry p q f _ hpq
      · exact ih (carryStep (segIsH p q) f) htail

/-- Orthogonality preservation for the full displacement-adjustment body,
covering the degenerate, 2-point and general cases. -/
theorem adjustCore_chain (f t : Offset) (pts : List Point)
    (h : OrthoPolyline pts) : OrthoPolyline (adjustCore f t pts) := by
  match pts with
  | [] => exact List.chain'_nil
  | [p] => simp [adjustCore, OrthoPolyline]
  | [a, b] =>
    by_cases hs : segIsH a b = true <;>
      simp [adjustCore, hs, OrthoPolyline, List.chain'_cons, Aligned]
  | p :: q :: r :: rest =>
    exact combinePoints_chain t (p :: q :: r :: rest) f h

/-- C1: for every edge whose base polyline is orthogonal (every consecutive
point pair axis-aligned) and every displacement map, the polyline returned
by `adjustedPoints` is again orthogonal; the degenerate, 2-point and
general cases are all covered. -/
theorem adjustedPoints_preserves_orthogonality (m : DMap) (edge : LayoutEdge)
    (h : OrthoPolyline edge.points) :
    OrthoPolyline (adjustedPoints m edge) := by
  simp only [adjustedPoints]
  split
  · exact h
  · exact adjustCore_chain _ _ edge.points h

/-- A concrete reference used by the witnesses below. -/
def sampleRef : SchemaRef :=
  { name := "", fromSchema := "public", fromTable := "a",
    fromColumns := ["id"], fromRelation := "1",
    toSchema := "public", toTable := "b",
    toColumns := ["aid"], toRelation := "*",
    onDelete := none, onUpdate := none }

/-- A concrete three-point orthogonal edge used by the witnesses below. -/
def sampleEdge : LayoutEdge :=
  { id := "e0", ref := sampleRef,
    points := [⟨0, 0⟩, ⟨10, 0⟩, ⟨10, 20⟩] }

/-- Witness for C1 at a concrete edge and displacement map. -/
theorem adjustedPoints_preserves_orthogonality_witness :
    OrthoPolyline (adjustedPoints [("public.a", ⟨3, 4⟩)] sampleEdge) :=
  adjustedPoints_preserves_orthogonality [("public.a", ⟨3, 4⟩)] sampleEdge
    (by decide)

/-! ## C2: zero displacements leave the polyline unchanged -/

/-- C2: if neither endpoint node of an edge has a nonzero displacement
(its entry is absent, hence read as zero, or explicitly `(0, 0)`), then
`adjustedPoints` returns the base polyline exactly unchanged.  In
particular applying a `(0, 0)` displacement to a node, or clearing all
displacements after a drag, restores every polyline to the base layout. -/
theorem adjustedPoints_zero_offsets (m : DMap) (edge : LayoutEdge)
    (hf : lookupOff m (edgeFromId edge) = Offset.zero)
    (ht : lookupOff m (edgeToId edge) = Offset.zero) :
    adjustedPoints m edge = edge.points := by
  unfold adjustedPoints
  rw [hf, ht]
  simp [Offset.zero]

/-- Witness for C2: a map carrying an explicit `(0, 0)` entry for the
source node and no entry for the target node. -/
theorem adjustedPoints_zero_offsets_witness :
    adjustedPoints [("public.a", Offset.zero)] sampleEdge = sampleEdge.points :=
  adjustedPoints_zero_offsets [("public.a", Offset.zero)] sampleEdge
    (by decide) (by decide)

/-! ## C3: dragging the source node by (50, 0) -/

theorem carryStep_zero (s : Bool) : carryStep s Offset.zero = Offset.zero := by
  cases s <;> rfl

theorem fwdOffsets_length (pts : List Point) :
    ∀ o : Offset, (fwdOffsets o pts).length = pts.length := by
  induction pts with
  | nil => intro o; rfl
  | cons p rest ih =>
    intro o
    cases rest with
    | nil => rfl
    | cons q rest' => simpa [fwdOffsets] using ih (carryStep (segIsH p q) o)

theorem bwdOffsets_length (o : Offset) (pts : List Point) :
    (bwdOffsets o pts).length = pts.length := by
  induction pts with
  | nil => rfl
  | cons p rest ih =>
    cases rest with
    | nil => rfl
    | cons q rest' => simpa [bwdOffsets] using ih

theorem fwdOffsets_zero (pts : List Point) :
    fwdOffsets Offset.zero pts = pts.map fun _ => Offset.zero := by
  induction pts with
  | nil => rfl
  | cons p rest ih =>
    cases rest with
    | nil => rfl
    | cons q rest' =>
      simp only [fwdOffsets, carryStep_zero, List.map_cons]
      rw [ih]
      simp

theorem bwdOffsets_zero (pts : List Point) :
    bwdOffsets Offset.zero pts = pts.map fun _ => Offset.zero := by
  induction pts with
  | nil => rfl
  | cons p rest ih =>
    cases rest with
    | nil => rfl
    | cons q rest' =>
      simp only [bwdOffsets, List.map_cons]
      rw [ih]
      simp [carryStep_zero]

/-- All segments of a polyline strictly before index `i` are vertical: the
condition under which the spec propagation rule carries the full `dx` of
the source node up to point `i`. -/
def allVertBefore : List Point → ℕ → Bool
  | _, 0 => true
  | p :: q :: rest, i + 1 => !(segIsH p q) && allVertBefore (q :: rest) i
  | _, _ + 1 => true

/-- Characterization of the forward offsets for a purely horizontal source
displacement `(d, 0)`: the carried offset at point `i` is `(d, 0)` while
every traversed segment is vertical and `(0, 0)` as soon as a horizontal
segment has been crossed; the `dy` component stays zero throughout. -/
theorem fwdOffsets_dx_only (d : ℚ) (pts : List Point) :
    ∀ i, i < pts.length →
      (fwdOffsets ⟨d, 0⟩ pts)[i]? =
        some ⟨if allVertBefore pts i then d else 0, 0⟩ := by
  induction pts with
  | nil => intro i hi; simp at hi
  | cons p rest ih =>
    intro i hi
    cases rest with
    | nil =>
      cases i with
      | zero => simp [fwdOffsets, allVertBefore]
      | succ j => simp at hi
    | cons q rest' =>
      cases i with
      | zero => simp [fwdOffsets, allVertBefore]
      | succ j =>
        have hlt : j < (q :: rest').length := by
          simpa using Nat.lt_of_succ_lt_succ hi
        by_cases hs : segIsH p q = true
        · have hcz : carryStep (segIsH p q) (⟨d, 0⟩ : Offset) = Offset.zero := by
            simp [carryStep, hs, Offset.zero]
          have hav : allVertBefore (p :: q :: rest') (j + 1) = false := by
            simp [allVertBefore, hs]
          rw [fwdOffsets]
          simp only [List.getElem?_cons_succ, hcz, fwdOffsets_zero, hav,
            List.getElem?_map, if_false]
          rw [List.getElem?_eq_getElem hlt]
          rfl
        · have hs' : segIsH p q = false := by simpa using hs
          have hcd : carryStep (segIsH p q) (⟨d, 0⟩ : Offset) = ⟨d, 0⟩ := by
            simp [carryStep, hs']
          have hav : allVertBefore (p :: q :: rest') (j + 1)
              = allVertBefore (q :: rest') j := by
            simp [allVertBefore, hs']
          rw [fwdOffsets]
          simp only [List.getElem?_cons_succ, hcd, hav]
          exact ih j hlt

/-- Index lemma for the pointwise combination. -/
theorem combinePoints_getElem (ps : List Point) :
    ∀ (fs bs : List Offset) (i : ℕ) (p : Point) (f b : Offset),
      ps[i]? = some p → fs[i]? = some f → bs[i]? = some b →
      (combinePoints ps fs bs)[i]? = some (offsetPoint p f b) := by
  induction ps with
  | nil => intro fs bs i p f b hp _ _; simp at hp
  | cons a ps ih =>
    intro fs bs i p f b hp hf hb
    cases fs with
    | nil => simp at hf
    | cons a' fs =>
      cases bs with
      | nil => simp at hb
      | cons a'' bs =>
        cases i with
        | zero =>
          simp only [List.getElem?_cons_zero, Option.some.injEq] at hp hf hb
          subst hp; subst hf; subst hb
          simp [combinePoints]
        | succ j =>
          simp only [List.getElem?_cons_succ] at hp hf hb
          simpa [combinePoints] using ih fs bs j p f b hp hf hb

/-- The general (3-or-more-point) case of the adjustment with a purely
horizontal source displacement `(d, 0)` and an undisplaced target: every
point keeps its `y` coordinate, and its `x` coordinate moves by `d`
exactly when every segment before it is vertical. -/
theorem adjustCore_from_only (d : ℚ) (pts : List Point) (h3 : 3 ≤ pts.length) :
    ∀ i, i < pts.length →
      (adjustCore ⟨d, 0⟩ Offset.zero pts)[i]? =
        (pts[i]?).map fun p =>
          ⟨p.x + (if allVertBefore pts i then d else 0), p.y⟩ := by
  match pts, h3 with
  | p :: q :: r :: rest, _ =>
    intro i hi
    have hp : (p :: q :: r :: rest)[i]? = some ((p :: q :: r :: rest).get ⟨i, hi⟩) := by
      rw [List.getElem?_eq_getElem hi]
      rfl
    have hfl : i < (fwdOffsets (⟨d, 0⟩ : Offset) (p :: q :: r :: rest)).length := by
      rw [fwdOffsets_length]; exact hi
    have hbl : i < (p :: q :: r :: rest).length := hi
    have hb : (bwdOffsets Offset.zero (p :: q :: r :: rest))[i]? = some Offset.zero := by
      rw [bwdOffsets_zero]
      simp only [List.getElem?_map, hp]
      rfl
    have hf := fwdOffsets_dx_only d (p :: q :: r :: rest) i hi
    have := combinePoints_getElem (p :: q :: r :: rest)
      (fwdOffsets ⟨d, 0⟩ (p :: q :: r :: rest))
      (bwdOffsets Offset.zero (p :: q :: r :: rest)) i
      ((p :: q :: r :: rest).get ⟨i, hi⟩)
      ⟨if allVertBefore (p :: q :: r :: rest) i then d else 0, 0⟩
      Offset.zero hp hf hb
    have hcore : adjustCore (⟨d, 0⟩ : Offset) Offset.zero (p :: q :: r :: rest) =
        combinePoints (p :: q :: r :: rest)
          (fwdOffsets ⟨d, 0⟩ (p :: q :: r :: rest))
          (bwdOffsets Offset.zero (p :: q :: r :: rest)) := rfl
    rw [hcore, this, hp]
    simp [offsetPoint, Offset.zero]

/-- C3: for an edge from node A to node B with at least three base points,
when only A carries a displacement of `(50, 0)`: the first adjusted point
shifts by exactly `(50, 0)`; every point keeps its `y` coordinate and its
`x` coordinate shifts by 50 exactly while only vertical segments have been
traversed (a horizontal segment transmits only the vertical component,
which is zero here); and the rendered position of B is unchanged. -/
theorem drag_source_by_50_0 (aId bId : String) (edge : LayoutEdge)
    (hfrom : edgeFromId edge = aId) (hto : edgeToId edge = bId)
    (hne : bId ≠ aId) (h3 : 3 ≤ edge.points.length) :
    ((adjustedPoints [(aId, ⟨50, 0⟩)] edge)[0]? =
        (edge.points[0]?).map fun p => ⟨p.x + 50, p.y⟩) ∧
    (∀ i, i < edge.points.length →
      (adjustedPoints [(aId, ⟨50, 0⟩)] edge)[i]? =
        (edge.points[i]?).map fun p =>
          ⟨p.x + (if allVertBefore edge.points i then 50 else 0), p.y⟩) ∧
    (∀ node : LayoutNode, node.id = bId →
      nodeX [(aId, ⟨50, 0⟩)] node = node.x ∧
      nodeY [(aId, ⟨50, 0⟩)] node = node.y) := by
  have hm1 : lookupOff [(aId, ⟨50, 0⟩)] aId = ⟨50, 0⟩ := by
    simp [lookupOff]
  have hm2 : lookupOff [(aId, ⟨50, 0⟩)] bId = Offset.zero := by
    simp [lookupOff, List.find?, Ne.symm hne]
  have hadj : adjustedPoints [(aId, ⟨50, 0⟩)] edge =
      adjustCore ⟨50, 0⟩ Offset.zero edge.points := by
    simp only [adjustedPoints, hfrom, hto, hm1, hm2]
    norm_num
  have hmain := adjustCore_from_only 50 edge.points h3
  refine ⟨?_, ?_, ?_⟩
  · have h0 : 0 < edge.points.length := by omega
    rw [hadj]
    have := hmain 0 h0
    simpa [allVertBefore] using this
  · intro i hi
    rw [hadj]
    exact hmain i hi
  · intro node hid
    rw [nodeX, nodeY, hid, hm2]
    simp [Offset.zero]

/-- Witness for C3 at the concrete sample edge. -/
theorem drag_source_by_50_0_witness :
    (adjustedPoints [("public.a", ⟨50, 0⟩)] sampleEdge)[0]? =
      (sampleEdge.points[0]?).map fun p => ⟨p.x + 50, p.y⟩ :=
  (drag_source_by_50_0 "public.a" "public.b" sampleEdge (by decide) (by decide)
    (by decide) (by decide)).1

/-! ## C4: 2-point polylines get a synthesized orthogonal bend -/

theorem Offset.eq_zero_iff (o : Offset) :
    o = Offset.zero ↔ o.dx = 0 ∧ o.dy = 0 := by
  cases o
  simp [Offset.zero]

/-- C4: for a 2-point base polyline with at least one displaced endpoint,
`adjustedPoints` synthesizes a bend at the axis-aligned midpoint of the
displaced endpoints, yielding a 4-point (3-segment) orthogonal path whose
first point is the base first point plus the source displacement and whose
last point is the base last point plus the target displacement; and for
degenerate 0- or 1-point polylines the adjustment is total and preserves
the point count (no exception). -/
theorem two_point_bend_synthesis (m : DMap) (edge : LayoutEdge) (a b : Point)
    (f t : Offset)
    (hpts : edge.points = [a, b])
    (hf : lookupOff m (edgeFromId edge) = f)
    (ht : lookupOff m (edgeToId edge) = t)
    (hnz : ¬(f = Offset.zero ∧ t = Offset.zero)) :
    (adjustedPoints m edge).length = 4 ∧
    (adjustedPoints m edge).head? = some ⟨a.x + f.dx, a.y + f.dy⟩ ∧
    (adjustedPoints m edge).getLast? = some ⟨b.x + t.dx, b.y + t.dy⟩ ∧
    OrthoPolyline (adjustedPoints m edge) ∧
    (segIsH a b = true →
      ((adjustedPoints m edge)[1]?).map Point.x =
        some (((a.x + f.dx) + (b.x + t.dx)) / 2) ∧
      ((adjustedPoints m edge)[2]?).map Point.x =
        some (((a.x + f.dx) + (b.x + t.dx)) / 2)) ∧
    (segIsH a b = false →
      ((adjustedPoints m edge)[1]?).map Point.y =
        some (((a.y + f.dy) + (b.y + t.dy)) / 2) ∧
      ((adjustedPoints m edge)[2]?).map Point.y =
        some (((a.y + f.dy) + (b.y + t.dy)) / 2)) ∧
    (∀ (m' : DMap) (e' : LayoutEdge), e'.points.length ≤ 1 →
      (adjustedPoints m' e').length = e'.points.length) := by
  have hadj : adjustedPoints m edge = adjustCore f t [a, b] := by
    simp only [adjustedPoints, hpts, hf, ht]
    rw [if_neg]
    intro hc
    exact hnz ⟨(Offset.eq_zero_iff f).mpr ⟨hc.1, hc.2.1⟩,
      (Offset.eq_zero_iff t).mpr ⟨hc.2.2.1, hc.2.2.2⟩⟩
  have hdeg : ∀ (m' : DMap) (e' : LayoutEdge), e'.points.length ≤ 1 →
      (adjustedPoints m' e').length = e'.points.length := by
    intro m' e' hlen
    simp only [adjustedPoints]
    split
    · rfl
    · match hpe : e'.points, hlen with
      | [], _ => rfl
      | [p], _ => rfl
  rw [hadj]
  by_cases hs : segIsH a b = true
  · refine ⟨?_, ?_, ?_, ?_, ?_, ?_, hdeg⟩ <;>
      simp [adjustCore, hs, OrthoPolyline, List.chain'_cons, Aligned]
  · have hs' : segIsH a b = false := by simpa using hs
    refine ⟨?_, ?_, ?_, ?_, ?_, ?_, hdeg⟩ <;>
      simp [adjustCore, hs', OrthoPolyline, List.chain'_cons, Aligned]

/-- Witness for C4: a concrete horizontal 2-point edge with a displaced
source endpoint. -/
theorem two_point_bend_synthesis_witness :
    (adjustedPoints [("public.a", ⟨10, 6⟩)]
        { id := "e1", ref := sampleRef, points := [⟨0, 0⟩, ⟨40, 0⟩] }).length = 4 :=
  (two_point_bend_synthesis [("public.a", ⟨10, 6⟩)]
    { id := "e1", ref := sampleRef, points := [⟨0, 0⟩, ⟨40, 0⟩] }
    ⟨0, 0⟩ ⟨40, 0⟩ ⟨10, 6⟩ Offset.zero rfl (by decide) (by decide)
    (by decide)).1

/-! ## C8, C9: drag handlers and displacement-map state -/

/-- The per-gesture values captured by the `onNodeMouseDown` closure:
start pointer position, starting offsets of the grabbed node, and the
current zoom scale. -/
structure Gesture where
  nodeId : String
  startX : ℚ
  startY : ℚ
  startDx : ℚ
  startDy : ℚ
  scale : ℚ
deriving DecidableEq, Repr

/-- The Diagram.svelte state touched by the drag handlers: the base layout
prop, the displacement map, the currently dragged node, and the active
gesture closure data. -/
structure DiagramState where
  layout : LayoutResult
  nodeOffsets : DMap
  draggingNodeId : Option String
  gesture : Option Gesture
deriving DecidableEq, Repr

/-- Pointer events driving the drag handlers of Diagram.svelte. -/
inductive DragEvent where
  | down (button : ℤ) (nodeId : String) (clientX clientY : ℚ) (scale : ℚ)
  | move (clientX clientY : ℚ)
  | up
deriving DecidableEq, Repr

/-- One step of the drag handlers: `onNodeMouseDown` (ignoring non-left
buttons, capturing start position, current offset and scale),
the `onMouseMove` closure (writing only `nodeOffsets`, adding the scaled
pointer delta to the captured start offset), and `onMouseUp` (clearing the
drag state). -/
def dragStep (s : DiagramState) : DragEvent → DiagramState
  | .down button nodeId clientX clientY scale =>
      if button ≠ 0 then s
      else
        { s with
          draggingNodeId := some nodeId,
          gesture := some
            { nodeId := nodeId, startX := clientX, startY := clientY,
              startDx := (lookupOff s.nodeOffsets nodeId).dx,
              startDy := (lookupOff s.nodeOffsets nodeId).dy,
              scale := scale } }
  | .move clientX clientY =>
      match s.gesture with
      | none => s
      | some g =>
          { s with
            nodeOffsets := updateOff s.nodeOffsets g.nodeId
              ⟨g.startDx + (clientX - g.startX) / g.scale,
               g.startDy + (clientY - g.startY) / g.scale⟩ }
  | .up => { s with draggingNodeId := none, gesture := none }

/-- The `$effect` of Diagram.svelte that runs when the layout prop changes
to a new layout result: it resets `nodeOffsets` to the empty map. -/
def layoutChangeEffect (s : DiagramState) (newLayout : LayoutResult) :
    DiagramState :=
  { s with layout := newLayout, nodeOffsets := [] }

/-- C8: dragging never mutates the base layout: the drag handlers write
only the displacement map (and the transient gesture state), so after any
sequence of pointer events the base layout - its nodes, edges and groups -
is exactly the layout the state started with. -/
theorem drag_preserves_base_layout (s : DiagramState) (evs : List DragEvent) :
    (evs.foldl dragStep s).layout = s.layout := by
  induction evs generalizing s with
  | nil => rfl
  | cons e evs ih =>
    rw [List.foldl_cons, ih]
    cases e with
    | down button nodeId clientX clientY scale =>
      simp only [dragStep]
      split <;> rfl
    | move clientX clientY =>
      simp only [dragStep]
      cases s.gesture <;> rfl
    | up => rfl

/-- Helper for C9: during an active gesture, every `move` event leaves the
gesture data untouched and after at least one `move` the offset of the
grabbed node equals the captured start offset plus the scaled delta from
the gesture start to the last pointer position. -/
theorem moves_accumulate (g : Gesture) :
    ∀ (moves : List (ℚ × ℚ)) (s : DiagramState), s.gesture = some g →
      moves ≠ [] →
      ((moves.map fun c => DragEvent.move c.1 c.2).foldl dragStep s).gesture
          = some g ∧
      ∀ hne : moves ≠ [],
        lookupOff ((moves.map fun c => DragEvent.move c.1 c.2).foldl
            dragStep s).nodeOffsets g.nodeId =
          ⟨g.startDx + ((moves.getLast hne).1 - g.startX) / g.scale,
           g.startDy + ((moves.getLast hne).2 - g.startY) / g.scale⟩ := by
  intro moves
  induction moves with
  | nil => intro s _ hne; exact absurd rfl hne
  | cons c rest ih =>
    intro s hg _
    have hstep : dragStep s (DragEvent.move c.1 c.2) =
        { s with
          nodeOffsets := updateOff s.nodeOffsets g.nodeId
            (⟨g.startDx + (c.1 - g.startX) / g.scale,
              g.startDy + (c.2 - g.startY) / g.scale⟩ : Offset) } := by
      simp only [dragStep, hg]
    cases rest with
    | nil =>
      refine ⟨?_, ?_⟩
      · simp only [List.map_cons, List.map_nil, List.foldl_cons,
          List.foldl_nil, hstep]
        exact hg
      · intro hne
        simp only [List.map_cons, List.map_nil, List.foldl_cons,
          List.foldl_nil, hstep, List.getLast]
        simp [updateOff, lookupOff]
    | cons c' rest' =>
      have hg' : (dragStep s (DragEvent.move c.1 c.2)).gesture = some g := by
        rw [hstep]
        exact hg
      have := ih (dragStep s (DragEvent.move c.1 c.2)) hg'
        (by simp)
      refine ⟨?_, ?_⟩
      · simpa using this.1
      · intro hne
        have hlast : (c :: c' :: rest').getLast hne =
            (c' :: rest').getLast (by simp) := by
          simp [List.getLast]
        rw [hlast]
        simpa using this.2 (by simp)

/-- C9: the displacement map is reset to empty whenever a new base layout
arrives, and within a single drag gesture (a left-button down followed by
any nonempty run of moves) the displacement of the grabbed node equals the
displacement present when the gesture began plus the accumulated pointer
delta divided by the zoom scale - it does not restart from zero, so
re-grabbing a node continues from its last dragged position. -/
theorem offsets_reset_and_accumulate (s : DiagramState)
    (newLayout : LayoutResult) (nodeId : String) (c0x c0y scale : ℚ)
    (moves : List (ℚ × ℚ)) (hne : moves ≠ []) :
    (layoutChangeEffect s newLayout).nodeOffsets = [] ∧
    lookupOff ((moves.map fun c => DragEvent.move c.1 c.2).foldl dragStep
        (dragStep s (.down 0 nodeId c0x c0y scale))).nodeOffsets nodeId =
      ⟨(lookupOff s.nodeOffsets nodeId).dx +
          ((moves.getLast hne).1 - c0x) / scale,
       (lookupOff s.nodeOffsets nodeId).dy +
          ((moves.getLast hne).2 - c0y) / scale⟩ := by
  constructor
  · rfl
  · have hdown : dragStep s (.down 0 nodeId c0x c0y scale) =
        { s with
          draggingNodeId := some nodeId,
          gesture := some
            { nodeId := nodeId, startX := c0x, startY := c0y,
              startDx := (lookupOff s.nodeOffsets nodeId).dx,
              startDy := (lookupOff s.nodeOffsets nodeId).dy,
              scale := scale } } := by
      simp [dragStep]
    have := (moves_accumulate
      { nodeId := nodeId, startX := c0x, startY := c0y,
        startDx := (lookupOff s.nodeOffsets nodeId).dx,
        startDy := (lookupOff s.nodeOffsets nodeId).dy,
        scale := scale } moves
      (dragStep s (.down 0 nodeId c0x c0y scale))
      (by rw [hdown]) hne).2 hne
    simpa using this

/-- Witness for C9 at a concrete state and gesture. -/
theorem offsets_reset_and_accumulate_witness :
    (layoutChangeEffect
        ⟨⟨[], [], [], 0, 0⟩, [("public.a", ⟨1, 2⟩)], none, none⟩
        ⟨[], [], [], 0, 0⟩).nodeOffsets = [] ∧
    lookupOff (([((30 : ℚ), (40 : ℚ))].map fun c =>
        DragEvent.move c.1 c.2).foldl dragStep
        (dragStep ⟨⟨[], [], [], 0, 0⟩, [("public.a", ⟨1, 2⟩)], none, none⟩
          (.down 0 "public.a" 10 20 1))).nodeOffsets "public.a" =
      ⟨(lookupOff [("public.a", ⟨1, 2⟩)] "public.a").dx + ((30 : ℚ) - 10) / 1,
       (lookupOff [("public.a", ⟨1, 2⟩)] "public.a").dy + ((40 : ℚ) - 20) / 1⟩ :=
  offsets_reset_and_accumulate
    ⟨⟨[], [], [], 0, 0⟩, [("public.a", ⟨1, 2⟩)], none, none⟩
    ⟨[], [], [], 0, 0⟩ "public.a" 10 20 1 [(30, 40)] (by decide)

/-! ## The graph builder and layout extraction (layout.ts) -/

/-- layout.ts `TABLE_HEADER_HEIGHT`. -/
def TABLE_HEADER_HEIGHT : ℕ := 36

/-- layout.ts `COLUMN_ROW_HEIGHT`. -/
def COLUMN_ROW_HEIGHT : ℕ := 28

/-- layout.ts `TABLE_MIN_WIDTH`. -/
def TABLE_MIN_WIDTH : ℕ := 200

/-- layout.ts `TABLE_MAX_WIDTH`. -/
def TABLE_MAX_WIDTH : ℕ := 360

/-- layout.ts `CHAR_WIDTH`. -/
def CHAR_WIDTH : ℕ := 8

/-- layout.ts `TABLE_PADDING_X`. -/
def TABLE_PADDING_X : ℕ := 24

/-- The constraint suffix of a column row in `estimateTableWidth`: the
selected badges joined by single spaces, preceded by two spaces when any
badge is present. -/
def constraintStr (col : SchemaColumn) : String :=
  let parts :=
    (if col.pk then ["PK"] else []) ++ (if col.unique then ["UQ"] else []) ++
      (if col.notNull then ["NN"] else []) ++ (if col.increment then ["AI"] else [])
  if parts.isEmpty then "" else "  " ++ String.intercalate " " parts

/-- The `lineLen` of one column row in `estimateTableWidth`:
name length + type length + 3 + constraint-string length. -/
def rowTextLen (col : SchemaColumn) : ℕ :=
  col.name.length + col.type.length + 3 + (constraintStr col).length

/-- layout.ts `estimateTableWidth`: `maxLen` starts at the table-name
length, is raised by each column row, then scaled and clamped. -/
def estimateTableWidth (t : SchemaTable) : ℕ :=
  let maxLen := t.columns.foldl (fun m c => max m (rowTextLen c)) t.name.length
  min TABLE_MAX_WIDTH (max TABLE_MIN_WIDTH (maxLen * CHAR_WIDTH + TABLE_PADDING_X * 2))

/-- The width formula exactly as claim C6 states it: the larger of the
minimum width and the maximum over column rows only (not the table name)
of the row text length times the character width plus twice the padding,
clamped to the maximum width. -/
def claimTableWidth (t : SchemaTable) : ℕ :=
  min TABLE_MAX_WIDTH (max TABLE_MIN_WIDTH
    ((t.columns.map rowTextLen).foldr max 0 * CHAR_WIDTH + TABLE_PADDING_X * 2))

/-- The C6 width formula amended to take the table-name length into the
maximum alongside the column rows, as the code does. -/
def claimTableWidthAmended (t : SchemaTable) : ℕ :=
  min TABLE_MAX_WIDTH (max TABLE_MIN_WIDTH
    (max t.name.length ((t.columns.map rowTextLen).foldr max 0) * CHAR_WIDTH
      + TABLE_PADDING_X * 2))

/-- A short column used in concrete examples. -/
def shortColumn : SchemaColumn :=
  { name := "a", type := "int", pk := false, unique := false,
    notNull := false, increment := false, defaultValue := none, note := none }

/-- A table whose 25-character name dominates every column row. -/
def wideNameTable : SchemaTable :=
  { name := "abcdefghijklmnopqrstuvwxy", schema := "public",
    columns := [shortColumn], note := none, headerColor := none }

/-- Counterexample to C6 as stated: for a table whose name is longer than
every column row, the computed width (which seeds the maximum with the
table-name length) differs from the claimed column-rows-only formula. -/
theorem estimateTableWidth_name_counterexample :
    estimateTableWidth wideNameTable = 248 ∧
    claimTableWidth wideNameTable = 200 ∧
    estimateTableWidth wideNameTable ≠ claimTableWidth wideNameTable := by
  refine ⟨by decide, by decide, by decide⟩

theorem foldl_max_eq_max_foldr (l : List ℕ) :
    ∀ a : ℕ, l.foldl max a = max a (l.foldr max 0) := by
  induction l with
  | nil => intro a; simp
  | cons x xs ih =>
    intro a
    simp only [List.foldl_cons, List.foldr_cons, ih (max a x)]
    omega

/-- C6 amended: the computed node width is the larger of the minimum width
(200) and the maximum of the table-name length and all column-row text
lengths, times the character width (8), plus twice the horizontal padding
(24), clamped to the maximum width (360). -/
theorem estimateTableWidth_eq_amended (t : SchemaTable) :
    estimateTableWidth t = claimTableWidthAmended t := by
  unfold estimateTableWidth claimTableWidthAmended
  have hmap : t.columns.foldl (fun m c => max m (rowTextLen c)) t.name.length
      = (t.columns.map rowTextLen).foldl max t.name.length := by
    rw [List.foldl_map]
  rw [hmap, foldl_max_eq_max_foldr]

/-! ## C5: reference-to-edge correspondence -/

/-- layout.ts `tableNodeId`. -/
def tableNodeId (t : SchemaTable) : String := t.schema ++ "." ++ t.name

/-- layout.ts `portId`. -/
def portId (t : SchemaTable) (columnName side : String) : String :=
  tableNodeId t ++ "." ++ columnName ++ "." ++ side

/-- The `fromKey` of a reference in `computeLayout`. -/
def refFromKey (r : SchemaRef) : String := r.fromSchema ++ "." ++ r.fromTable

/-- The `toKey` of a reference in `computeLayout`. -/
def refToKey (r : SchemaRef) : String := r.toSchema ++ "." ++ r.toTable

/-- The `tableMap` lookup of `computeLayout`: a JS `Map` filled by
insertion, so the last table stored under a key wins. -/
def tableMapGet (tables : List SchemaTable) (key : String) : Option SchemaTable :=
  tables.reverse.find? fun t => tableNodeId t = key

/-- An edge record submitted to the ELK solver. -/
structure ElkEdge where
  id : String
  sources : List String
  targets : List String
deriving DecidableEq, Repr

/-- The edge-building loop of `computeLayout`: skips references with an
unresolved endpoint and otherwise emits one edge (with id `e<index>`,
index counting emitted edges) and records the surviving reference. -/
def buildEdgesAux (tables : List SchemaTable) :
    List SchemaRef → ℕ → List ElkEdge × List SchemaRef
  | [], _ => ([], [])
  | r :: rs, k =>
      match tableMapGet tables (refFromKey r), tableMapGet tables (refToKey r) with
      | some ft, some tt =>
          let rest := buildEdgesAux tables rs (k + 1)
          (⟨s!"e{k}", [portId ft (r.fromColumns.headD "") "right"],
              [portId tt (r.toColumns.headD "") "left"]⟩ :: rest.1,
            r :: rest.2)
      | _, _ => buildEdgesAux tables rs k

/-- The `(edges, survivingRefs)` pair built by `computeLayout`. -/
def buildEdges (tables : List SchemaTable) (refs : List SchemaRef) :
    List ElkEdge × List SchemaRef :=
  buildEdgesAux tables refs 0

/-- Whether both endpoint tables of a reference resolve in the table map. -/
def refResolves (tables : List SchemaTable) (r : SchemaRef) : Bool :=
  (tableMapGet tables (refFromKey r)).isSome &&
    (tableMapGet tables (refToKey r)).isSome

/-- One routing section of an ELK result edge. -/
structure ElkSection where
  startPoint : Point
  bendPoints : List Point
  endPoint : Point
deriving DecidableEq, Repr

/-- One edge of the ELK solver result (absent `sections` modelled as the
empty list). -/
structure ElkResultEdge where
  id : String
  sections : List ElkSection
deriving DecidableEq, Repr

/-- Polyline assembly of `computeLayout`: per section, its start point,
the interior bend points, then its end point, concatenated. -/
def resultEdgePoints (e : ElkResultEdge) : List Point :=
  (e.sections.map fun s => s.startPoint :: (s.bendPoints ++ [s.endPoint])).flatten

/-- Placeholder for the out-of-range JS indexing `survivingRefs[i]`
(which yields `undefined`, not an exception); never reached when the
solver preserves the submitted edge count. -/
def defaultRef : SchemaRef :=
  ⟨"", "", "", [], "", "", "", [], "", none, none⟩

/-- The result-edge mapping of `computeLayout`: each result edge becomes a
`LayoutEdge` whose reference is looked up by positional index in the
surviving-reference list. -/
def extractLayoutEdgesAux (srs : List SchemaRef) :
    List ElkResultEdge → ℕ → List LayoutEdge
  | [], _ => []
  | e :: es, i =>
      { id := e.id, ref := (srs[i]?).getD defaultRef,
        points := resultEdgePoints e } :: extractLayoutEdgesAux srs es (i + 1)

/-- `result.edges.map((edge, i) => ...)` of `computeLayout`. -/
def extractLayoutEdges (srs : List SchemaRef) (res : List ElkResultEdge) :
    List LayoutEdge :=
  extractLayoutEdgesAux srs res 0

theorem buildEdgesAux_refs (tables : List SchemaTable) (refs : List SchemaRef) :
    ∀ k, (buildEdgesAux tables refs k).2 =
      refs.filter fun r => refResolves tables r := by
  induction refs with
  | nil => intro k; rfl
  | cons r rs ih =>
    intro k
    rcases hf : tableMapGet tables (refFromKey r) with _ | ft <;>
      rcases ht : tableMapGet tables (refToKey r) with _ | tt <;>
        simp [buildEdgesAux, hf, ht, refResolves, ih]

theorem buildEdgesAux_length (tables : List SchemaTable)
    (refs : List SchemaRef) :
    ∀ k, (buildEdgesAux tables refs k).1.length =
      (buildEdgesAux tables refs k).2.length := by
  induction refs with
  | nil => intro k; rfl
  | cons r rs ih =>
    intro k
    rcases hf : tableMapGet tables (refFromKey r) with _ | ft <;>
      rcases ht : tableMapGet tables (refToKey r) with _ | tt <;>
        simp [buildEdgesAux, hf, ht, ih]

theorem extractLayoutEdgesAux_length (srs : List SchemaRef)
    (res : List ElkResultEdge) :
    ∀ i, (extractLayoutEdgesAux srs res i).length = res.length := by
  induction res with
  | nil => intro i; rfl
  | cons e es ih => intro i; simp [extractLayoutEdgesAux, ih]

theorem extractLayoutEdgesAux_ref (srs : List SchemaRef)
    (res : List ElkResultEdge) :
    ∀ i j, j < res.length →
      ((extractLayoutEdgesAux srs res i)[j]?).map LayoutEdge.ref =
        some ((srs[i + j]?).getD defaultRef) := by
  induction res with
  | nil => intro i j hj; simp at hj
  | cons e es ih =>
    intro i j hj
    cases j with
    | zero => simp [extractLayoutEdgesAux]
    | succ j' =>
      have hj' : j' < es.length := by simpa using Nat.lt_of_succ_lt_succ hj
      have := ih (i + 1) j' hj'
      have harith : i + 1 + j' = i + (j' + 1) := by omega
      rw [harith] at this
      simpa [extractLayoutEdgesAux] using this

/-- C5: every reference whose two endpoint tables resolve contributes
exactly one edge to the solver submission (the surviving references are
exactly the resolvable ones, in order, and edge and reference counts
agree); references with an unresolved endpoint contribute nothing; and for
any solver result that preserves the submitted edge count, each output
`LayoutEdge` carries the surviving reference at the same positional index.
All functions involved are total, so no exception propagates. -/
theorem reference_edge_correspondence (tables : List SchemaTable)
    (refs : List SchemaRef) :
    (buildEdges tables refs).2 = (refs.filter fun r => refResolves tables r) ∧
    (buildEdges tables refs).1.length = (buildEdges tables refs).2.length ∧
    ∀ res : List ElkResultEdge,
      res.length = (buildEdges tables refs).1.length →
      (extractLayoutEdges (buildEdges tables refs).2 res).length = res.length ∧
      ∀ j, j < res.length →
        ((extractLayoutEdges (buildEdges tables refs).2 res)[j]?).map
            LayoutEdge.ref =
          (buildEdges tables refs).2[j]? := by
  refine ⟨buildEdgesAux_refs tables refs 0, buildEdgesAux_length tables refs 0,
    ?_⟩
  intro res hres
  refine ⟨extractLayoutEdgesAux_length _ res 0, ?_⟩
  intro j hj
  have hsrs : j < (buildEdges tables refs).2.length := by
    have h1 := buildEdgesAux_length tables refs 0
    have h2 : (buildEdges tables refs).1.length =
        (buildEdges tables refs).2.length := h1
    omega
  have hget : (buildEdges tables refs).2[j]? =
      some ((buildEdges tables refs).2.get ⟨j, hsrs⟩) := by
    rw [List.getElem?_eq_getElem hsrs]
    rfl
  have := extractLayoutEdgesAux_ref (buildEdges tables refs).2 res 0 j hj
  rw [Nat.zero_add] at this
  rw [extractLayoutEdges, this, hget]
  simp

/-- A second table for the concrete schema examples. -/
def tableB : SchemaTable :=
  { name := "b", schema := "public", columns := [shortColumn],
    note := none, headerColor := none }

/-- A first table for the concrete schema examples. -/
def tableA : SchemaTable :=
  { name := "a", schema := "public", columns := [shortColumn],
    note := none, headerColor := none }

/-- A reference whose target table does not exist in the sample schema. -/
def danglingRef : SchemaRef :=
  { name := "", fromSchema := "public", fromTable := "a",
    fromColumns := ["id"], fromRelation := "1",
    toSchema := "public", toTable := "ghost",
    toColumns := ["aid"], toRelation := "*",
    onDelete := none, onUpdate := none }

/-- A one-section solver result edge used by the C5 witness. -/
def sampleResultEdge : ElkResultEdge :=
  { id := "e0",
    sections := [{ startPoint := ⟨0, 0⟩, bendPoints := [⟨5, 0⟩],
                   endPoint := ⟨5, 7⟩ }] }

/-- Witness for C5: a schema with one resolvable and one dangling
reference, and a solver result with the matching edge count. -/
theorem reference_edge_correspondence_witness :
    (extractLayoutEdges (buildEdges [tableA, tableB]
        [sampleRef, danglingRef]).2 [sampleResultEdge]).length =
      [sampleResultEdge].length ∧
    ∀ j, j < [sampleResultEdge].length →
      ((extractLayoutEdges (buildEdges [tableA, tableB]
          [sampleRef, danglingRef]).2 [sampleResultEdge])[j]?).map
          LayoutEdge.ref =
        (buildEdges [tableA, tableB] [sampleRef, danglingRef]).2[j]? :=
  (reference_edge_correspondence [tableA, tableB]
    [sampleRef, danglingRef]).2.2 [sampleResultEdge] (by decide)

/-! ## C7: extraction of groups and group-nested tables -/

/-- layout.ts `groupNodeId`. -/
def groupNodeId (g : SchemaTableGroup) : String := "group:" ++ g.name

/-- The `groupByElkId` lookup of `computeLayout` (JS `Map`, last set
wins). -/
def findGroupByElkId (groups : List SchemaTableGroup) (id : String) :
    Option SchemaTableGroup :=
  groups.reverse.find? fun g => groupNodeId g = id

/-- A leaf (table) node of the ELK result tree. -/
structure ElkResultLeaf where
  id : String
  x : ℚ
  y : ℚ
  width : ℚ
  height : ℚ
deriving DecidableEq, Repr

/-- A top-level child of the ELK result tree; its children are the
group-nested table nodes (empty for plain table children). -/
structure ElkResultChild where
  id : String
  x : ℚ
  y : ℚ
  width : ℚ
  height : ℚ
  children : List ElkResultLeaf
deriving DecidableEq, Repr

/-- The extraction loop of `computeLayout` over `result.children`:
children recognized as groups are recorded as a `LayoutGroup` and their
grandchildren as `LayoutNode`s translated by the group origin; plain
children become `LayoutNode`s with their own coordinates.  `findTable`
models the non-null map access `tableMap.get(id)!`, total here because a
well-formed graph submission only yields known ids (spec 4.2 invariant). -/
def extractNodesGroups (groups : List SchemaTableGroup)
    (findTable : String → SchemaTable) :
    List ElkResultChild → List LayoutNode × List LayoutGroup
  | [] => ([], [])
  | c :: rest =>
      let acc := extractNodesGroups groups findTable rest
      match findGroupByElkId groups c.id with
      | some sg =>
          ((c.children.map fun gc =>
              { id := gc.id, x := c.x + gc.x, y := c.y + gc.y,
                width := gc.width, height := gc.height,
                table := findTable gc.id }) ++ acc.1,
            { id := c.id, x := c.x, y := c.y, width := c.width,
              height := c.height, name := sg.name, color := sg.color } :: acc.2)
      | none =>
          ({ id := c.id, x := c.x, y := c.y, width := c.width,
              height := c.height, table := findTable c.id } :: acc.1, acc.2)

/-- C7: for every top-level solver-result child recognized as a group, the
extraction records its bounding box as a `LayoutGroup` and each grandchild
as a `LayoutNode` whose global position is the group origin plus the
grandchild position; every plain top-level child is recorded directly with
its solver coordinates. -/
theorem extraction_group_nesting (groups : List SchemaTableGroup)
    (findTable : String → SchemaTable) (cs : List ElkResultChild)
    (c : ElkResultChild) (hc : c ∈ cs) :
    (∀ sg, findGroupByElkId groups c.id = some sg →
      ({ id := c.id, x := c.x, y := c.y, width := c.width, height := c.height,
          name := sg.name, color := sg.color } : LayoutGroup)
          ∈ (extractNodesGroups groups findTable cs).2 ∧
      ∀ gc ∈ c.children,
        ({ id := gc.id, x := c.x + gc.x, y := c.y + gc.y, width := gc.width,
            height := gc.height, table := findTable gc.id } : LayoutNode)
            ∈ (extractNodesGroups groups findTable cs).1) ∧
    (findGroupByElkId groups c.id = none →
      ({ id := c.id, x := c.x, y := c.y, width := c.width, height := c.height,
          table := findTable c.id } : LayoutNode)
          ∈ (extractNodesGroups groups findTable cs).1) := by
  induction cs with
  | nil => cases hc
  | cons c0 rest ih =>
    rcases List.mem_cons.mp hc with rfl | hmem
    · refine ⟨?_, ?_⟩
      · intro sg hsg
        refine ⟨?_, ?_⟩
        · simp [extractNodesGroups, hsg]
        · intro gc hgc
          simp only [extractNodesGroups, hsg, List.mem_append, List.mem_map]
          exact Or.inl ⟨gc, hgc, rfl⟩
      · intro hnone
        simp [extractNodesGroups, hnone]
    · have htail := ih hmem
      refine ⟨?_, ?_⟩
      · intro sg hsg
        have h2 := htail.1 sg hsg
        rcases hg0 : findGroupByElkId groups c0.id with _ | sg0
        · exact ⟨by simp only [extractNodesGroups, hg0]; exact h2.1,
            fun gc hgc => by
              simp only [extractNodesGroups, hg0, List.mem_cons]
              exact Or.inr (h2.2 gc hgc)⟩
        · exact ⟨by
            simp only [extractNodesGroups, hg0, List.mem_cons]
            exact Or.inr h2.1,
            fun gc hgc => by
              simp only [extractNodesGroups, hg0, List.mem_append]
              exact Or.inr (h2.2 gc hgc)⟩
      · intro hnone
        have h2 := htail.2 hnone
        rcases hg0 : findGroupByElkId groups c0.id with _ | sg0
        · simp only [extractNodesGroups, hg0, List.mem_cons]
          exact Or.inr h2
        · simp only [extractNodesGroups, hg0, List.mem_append]
          exact Or.inr h2

/-- A concrete group used by the C7 witness. -/
def witnessGroup : SchemaTableGroup :=
  { name := "core", tables := [{ schemaName := "public", tableName := "a" }],
    color := some "#ff0000", note := none }

/-- A concrete group-shaped result child used by the C7 witness. -/
def witnessGroupChild : ElkResultChild :=
  { id := "group:core", x := 100, y := 50, width := 300, height := 200,
    children := [{ id := "public.a", x := 20, y := 30, width := 200,
                   height := 64 }] }

/-- Witness for C7: the grandchild of a concrete group child is extracted
at the group origin plus its relative position. -/
theorem extraction_group_nesting_witness :
    ({ id := "public.a", x := (100 : ℚ) + 20, y := (50 : ℚ) + 30,
        width := 200, height := 64, table := tableA } : LayoutNode)
        ∈ (extractNodesGroups [witnessGroup] (fun _ => tableA)
            [witnessGroupChild]).1 :=
  ((extraction_group_nesting [witnessGroup] (fun _ => tableA)
      [witnessGroupChild] witnessGroupChild (by decide)).1 witnessGroup
      (by decide)).2
    { id := "public.a", x := 20, y := 30, width := 200, height := 64 }
    (by decide)

/-! ## C10: every table submitted exactly once -/

/-- layout.ts `NOTE_CHAR_WIDTH`. -/
def NOTE_CHAR_WIDTH : ℕ := 6

/-- layout.ts `NOTE_LINE_HEIGHT`. -/
def NOTE_LINE_HEIGHT : ℕ := 14

/-- layout.ts `NOTE_NAME_AREA`. -/
def NOTE_NAME_AREA : ℕ := 28

/-- layout.ts `NOTE_BOTTOM_PAD`. -/
def NOTE_BOTTOM_PAD : ℕ := 8

/-- The greedy word-wrapping loop of `wrapNoteText`. -/
def wrapLoop (charsPerLine : ℕ) : List String → String → List String
  | [], current => if current = "" then [] else [current]
  | w :: ws, current =>
      if current ≠ "" ∧ current.length + 1 + w.length > charsPerLine then
        current :: wrapLoop charsPerLine ws w
      else
        wrapLoop charsPerLine ws (if current = "" then w else current ++ " " ++ w)

/-- layout.ts `wrapNoteText`.  The JS source splits on runs of whitespace
(`/\s+/`) and its loop treats an empty word as absent (empty strings are
falsy), so splitting on single whitespace characters and dropping empty
pieces is extensionally the same. -/
def wrapNoteText (note : String) (tableWidth : ℕ) : List String :=
  let availWidth := tableWidth - TABLE_PADDING_X * 2
  let charsPerLine := max 1 (availWidth / NOTE_CHAR_WIDTH)
  let words := (note.split fun c => c.isWhitespace).filter fun w => w ≠ ""
  let lines := wrapLoop charsPerLine words ""
  if lines = [] then [""] else lines

/-- layout.ts `headerHeight` (an empty note string is falsy in the JS
check `!table.note`, hence also yields the plain header height). -/
def headerHeight (t : SchemaTable) (tableWidth : ℕ) : ℕ :=
  match t.note with
  | none => TABLE_HEADER_HEIGHT
  | some note =>
      if note = "" then TABLE_HEADER_HEIGHT
      else NOTE_NAME_AREA + (wrapNoteText note tableWidth).length *
        NOTE_LINE_HEIGHT + NOTE_BOTTOM_PAD

/-- layout.ts `tableHeight`. -/
def tableHeight (t : SchemaTable) (tableWidth : ℕ) : ℕ :=
  headerHeight t tableWidth + t.columns.length * COLUMN_ROW_HEIGHT

/-- The port identities created by `buildTableElkNode` (one `right` and
one `left` port per column, in column order); the port coordinates are
direction-dependent geometry that no claim refers to and are not
modelled. -/
def tablePortIds (t : SchemaTable) : List String :=
  (t.columns.map fun c => [portId t c.name "right", portId t c.name "left"]).flatten

/-- A table node of the graph submitted to the ELK solver. -/
structure ElkTableNode where
  id : String
  width : ℕ
  height : ℕ
  portIds : List String
deriving DecidableEq, Repr

/-- layout.ts `buildTableElkNode`. -/
def buildTableElkNode (t : SchemaTable) : ElkTableNode :=
  let width := estimateTableWidth t
  { id := tableNodeId t, width := width, height := tableHeight t width,
    portIds := tablePortIds t }

/-- A top-level child of the graph submitted to the solver: either a plain
table node or a group compound node holding table nodes (the tagged-union
view of the untyped ELK child objects). -/
inductive ElkGraphChild where
  | table (node : ElkTableNode)
  | group (id : String) (children : List ElkTableNode)
deriving DecidableEq, Repr

/-- The `schemaName.tableName` key of a group member reference. -/
def memberKey (m : GroupMember) : String := m.schemaName ++ "." ++ m.tableName

/-- All `(member key, group)` insertions performed while building
`tableToGroup`, in insertion order. -/
def flatAssignments (groups : List SchemaTableGroup) :
    List (String × SchemaTableGroup) :=
  (groups.map fun g => g.tables.map fun m => (memberKey m, g)).flatten

/-- The `tableToGroup` lookup of `computeLayout` (JS `Map`: the last
insertion for a key wins). -/
def tableToGroupGet (groups : List SchemaTableGroup) (key : String) :
    Option SchemaTableGroup :=
  ((flatAssignments groups).reverse.find? fun p => p.1 = key).map Prod.snd

/-- The `connectionCount` of `computeLayout`: each reference contributes
one to its from-key and one to its to-key. -/
def connCount (refs : List SchemaRef) (key : String) : ℕ :=
  (refs.filter fun r => refFromKey r = key).length +
    (refs.filter fun r => refToKey r = key).length

/-- The children of a group compound node: its member references resolved
against the table map, unresolvable members skipped. -/
def groupChildren (tables : List SchemaTable) (g : SchemaTableGroup) :
    List ElkTableNode :=
  g.tables.filterMap fun m =>
    (tableMapGet tables (memberKey m)).map buildTableElkNode

/-- The ungrouped tables ordered most-connected-first (the JS
`Array.prototype.sort` with comparator `count(b) - count(a)`, modelled as
a merge sort by descending connection count). -/
def ungroupedSorted (tables : List SchemaTable) (refs : List SchemaRef)
    (groups : List SchemaTableGroup) : List SchemaTable :=
  (tables.filter fun t =>
      !(tableToGroupGet groups (tableNodeId t)).isSome).mergeSort
    fun a b =>
      decide (connCount refs (tableNodeId b) ≤ connCount refs (tableNodeId a))

/-- The `topLevelChildren` built by `computeLayout`: one compound node per
group with at least one resolvable member (in group order), followed by
the ungrouped tables, most-connected first. -/
def buildTopLevelChildren (tables : List SchemaTable) (refs : List SchemaRef)
    (groups : List SchemaTableGroup) : List ElkGraphChild :=
  (groups.filterMap fun g =>
      let cs := groupChildren tables g
      if cs.isEmpty then none
      else some (ElkGraphChild.group (groupNodeId g) cs)) ++
    (ungroupedSorted tables refs groups).map fun t =>
      ElkGraphChild.table (buildTableElkNode t)

/-- The ids of the table nodes contributed by one top-level child. -/
def childTableIds : ElkGraphChild → List String
  | .table n => [n.id]
  | .group _ cs => cs.map ElkTableNode.id

/-- All ids contributed by one top-level child, the compound-node id
included. -/
def childAllIds : ElkGraphChild → List String
  | .table n => [n.id]
  | .group gid cs => gid :: cs.map ElkTableNode.id

/-- The compound-node id of a group child. -/
def topGroupId : ElkGraphChild → Option String
  | .table _ => none
  | .group gid _ => some gid

/-- All table-node ids of the submitted graph, in submission order. -/
def allTableIds (cs : List ElkGraphChild) : List String :=
  (cs.map childTableIds).flatten

/-- All node ids of the submitted graph (groups and tables). -/
def allNodeIds (cs : List ElkGraphChild) : List String :=
  (cs.map childAllIds).flatten

theorem tableMapGet_isSome_iff (tables : List SchemaTable) (key : String) :
    (tableMapGet tables key).isSome = true ↔ key ∈ tables.map tableNodeId := by
  simp only [tableMapGet, List.find?_isSome, List.mem_reverse, List.mem_map,
    decide_eq_true_eq]

theorem tableMapGet_id (tables : List SchemaTable) (key : String)
    (t' : SchemaTable) (h : tableMapGet tables key = some t') :
    tableNodeId t' = key := by
  have := List.find?_some h
  simpa using this

theorem tableToGroupGet_isSome_iff (groups : List SchemaTableGroup)
    (key : String) :
    (tableToGroupGet groups key).isSome = true ↔
      key ∈ (flatAssignments groups).map Prod.fst := by
  simp only [tableToGroupGet, Option.isSome_map', List.find?_isSome,
    List.mem_reverse, List.mem_map, decide_eq_true_eq]

theorem tableToGroupGet_mem (groups : List SchemaTableGroup) (key : String)
    (g : SchemaTableGroup) (h : tableToGroupGet groups key = some g) :
    g ∈ groups ∧ ∃ m ∈ g.tables, memberKey m = key := by
  unfold tableToGroupGet at h
  rcases Option.map_eq_some'.mp h with ⟨p, hp, hps⟩
  have hkey : p.1 = key := by simpa using List.find?_some hp
  have hmem : p ∈ flatAssignments groups := by
    rw [← List.mem_reverse]
    exact List.mem_of_find?_eq_some hp
  simp only [flatAssignments, List.mem_flatten, List.mem_map] at hmem
  obtain ⟨l, ⟨g', hg', hl⟩, hpl⟩ := hmem
  subst hl
  simp only [List.mem_map] at hpl
  obtain ⟨m, hm, hmp⟩ := hpl
  have hg2 : g' = g := by rw [← hps, ← hmp]
  subst hg2
  refine ⟨hg', m, hm, ?_⟩
  rw [← hkey, ← hmp]

theorem filterMap_member_ids (tables : List SchemaTable) :
    ∀ ms : List GroupMember,
      ((ms.filterMap fun m =>
          (tableMapGet tables (memberKey m)).map buildTableElkNode).map
        ElkTableNode.id) =
        (ms.map memberKey).filter fun k => (tableMapGet tables k).isSome := by
  intro ms
  induction ms with
  | nil => rfl
  | cons m ms ih =>
    rcases h : tableMapGet tables (memberKey m) with _ | t'
    · simp [List.filterMap_cons, h, ih]
    · have hid : (buildTableElkNode t').id = memberKey m := by
        simp only [buildTableElkNode]
        exact tableMapGet_id tables (memberKey m) t' h
      simp [List.filterMap_cons, h, ih, hid]

theorem groupChildren_ids (tables : List SchemaTable) (g : SchemaTableGroup) :
    (groupChildren tables g).map ElkTableNode.id =
      (g.tables.map memberKey).filter fun k => (tableMapGet tables k).isSome :=
  filterMap_member_ids tables g.tables

theorem flatten_groupChildren_ids (tables : List SchemaTable)
    (groups : List SchemaTableGroup) :
    (groups.map fun g => (groupChildren tables g).map ElkTableNode.id).flatten
      = ((flatAssignments groups).map Prod.fst).filter
          fun k => (tableMapGet tables k).isSome := by
  induction groups with
  | nil => rfl
  | cons g gs ih =>
    have hfst : (g.tables.map fun m => (memberKey m, g)).map Prod.fst
        = g.tables.map memberKey := by
      rw [List.map_map]
      rfl
    rw [List.map_cons, List.flatten_cons, groupChildren_ids tables g, ih]
    simp only [flatAssignments, List.map_cons, List.flatten_cons,
      List.map_append, List.filter_append, hfst]

theorem filterMap_group_children_ids (tables : List SchemaTable)
    (groups : List SchemaTableGroup) :
    ((groups.filterMap fun g =>
        let cs := groupChildren tables g
        if cs.isEmpty then none
        else some (ElkGraphChild.group (groupNodeId g) cs)).map
      childTableIds).flatten =
      (groups.map fun g =>
        (groupChildren tables g).map ElkTableNode.id).flatten := by
  induction groups with
  | nil => rfl
  | cons g gs ih =>
    by_cases h : (groupChildren tables g).isEmpty
    · have hnil : groupChildren tables g = [] := by
        simpa [List.isEmpty_iff] using h
      have hred : (let cs := groupChildren tables g;
          if cs.isEmpty = true then none
          else some (ElkGraphChild.group (groupNodeId g) cs)) = none := by
        simp [h]
      rw [List.filterMap_cons, hred, List.map_cons, List.flatten_cons, hnil,
        List.map_nil, List.nil_append]
      exact ih
    · have hred : (let cs := groupChildren tables g;
          if cs.isEmpty = true then none
          else some (ElkGraphChild.group (groupNodeId g) cs)) =
          some (ElkGraphChild.group (groupNodeId g)
            (groupChildren tables g)) := by
        simp [h]
      rw [List.filterMap_cons, hred, List.map_cons, List.flatten_cons,
        List.map_cons, List.flatten_cons, ih]
      rfl

theorem flatten_singletons {α β : Type} (f : α → β) (l : List α) :
    (l.map fun a => [f a]).flatten = l.map f := by
  induction l with
  | nil => rfl
  | cons a l ih => simp [ih]

theorem count_filter_mem_perm {α : Type} [DecidableEq α] (A B : List α)
    (hB : B.Nodup) (hA : ∀ k ∈ B, A.count k ≤ 1) :
    (A.filter fun k => decide (k ∈ B)) ~ (B.filter fun k => decide (k ∈ A)) := by
  have hnA : (A.filter fun k => decide (k ∈ B)).Nodup := by
    rw [List.nodup_iff_count_le_one]
    intro a
    by_cases ha : a ∈ B
    · calc (A.filter fun k => decide (k ∈ B)).count a
          ≤ A.count a := (List.filter_sublist A).count_le a
        _ ≤ 1 := hA a ha
    · have : a ∉ A.filter fun k => decide (k ∈ B) := by
        intro hmem
        exact ha (by simpa using (List.mem_filter.mp hmem).2)
      simp [List.count_eq_zero.mpr this]
  refine (List.perm_ext_iff_of_nodup hnA (hB.filter _)).mpr ?_
  intro a
  simp only [List.mem_filter, decide_eq_true_eq]
  exact and_comm

theorem map_filter_comp {α β : Type} (f : α → β) (p : β → Bool) (l : List α) :
    (l.filter fun a => p (f a)).map f = (l.map f).filter p := by
  induction l with
  | nil => rfl
  | cons a l ih => by_cases h : p (f a) = true <;> simp [h, ih]

theorem allNodeIds_perm_decomp (cs : List ElkGraphChild) :
    allNodeIds cs ~ cs.filterMap topGroupId ++ allTableIds cs := by
  induction cs with
  | nil => rfl
  | cons c rest ih =>
    cases c with
    | table n =>
      have h1 : allNodeIds (ElkGraphChild.table n :: rest)
          = n.id :: allNodeIds rest := rfl
      have h2 : (ElkGraphChild.table n :: rest).filterMap topGroupId ++
            allTableIds (ElkGraphChild.table n :: rest)
          = rest.filterMap topGroupId ++ (n.id :: allTableIds rest) := rfl
      rw [h1, h2]
      exact (ih.cons n.id).trans List.perm_middle.symm
    | group gid gcs =>
      have h1 : allNodeIds (ElkGraphChild.group gid gcs :: rest)
          = gid :: (gcs.map ElkTableNode.id ++ allNodeIds rest) := by
        simp [allNodeIds, childAllIds]
      have h2 : (ElkGraphChild.group gid gcs :: rest).filterMap topGroupId ++
            allTableIds (ElkGraphChild.group gid gcs :: rest)
          = gid :: (rest.filterMap topGroupId ++
              (gcs.map ElkTableNode.id ++ allTableIds rest)) := by
        simp [allTableIds, childTableIds, topGroupId, List.filterMap_cons]
      rw [h1, h2]
      refine List.Perm.cons gid ?_
      have hmid : gcs.map ElkTableNode.id ++ allNodeIds rest
          ~ gcs.map ElkTableNode.id ++
              (rest.filterMap topGroupId ++ allTableIds rest) :=
        ih.append_left _
      refine hmid.trans ?_
      rw [← List.append_assoc, ← List.append_assoc]
      exact List.perm_append_comm.append_right _

theorem filterMap_const_none {α β : Type} (l : List α) :
    l.filterMap (fun _ => (none : Option β)) = [] := by
  induction l with
  | nil => rfl
  | cons a l ih => simp [List.filterMap_cons, ih]

theorem filterMap_topGroupId_groups (tables : List SchemaTable)
    (groups : List SchemaTableGroup) :
    ((groups.filterMap fun g =>
        let cs := groupChildren tables g
        if cs.isEmpty then none
        else some (ElkGraphChild.group (groupNodeId g) cs)).filterMap
      topGroupId) =
      (groups.filter fun g => !(groupChildren tables g).isEmpty).map
        groupNodeId := by
  induction groups with
  | nil => rfl
  | cons g gs ih =>
    by_cases h : (groupChildren tables g).isEmpty
    · have hred : (let cs := groupChildren tables g;
          if cs.isEmpty = true then none
          else some (ElkGraphChild.group (groupNodeId g) cs)) = none := by
        simp [h]
      rw [List.filterMap_cons, hred, List.filter_cons]
      simp only [h, Bool.not_true, Bool.false_eq_true, if_false]
      exact ih
    · have hb : (!(groupChildren tables g).isEmpty) = true := by
        simp [h]
      have hred : (let cs := groupChildren tables g;
          if cs.isEmpty = true then none
          else some (ElkGraphChild.group (groupNodeId g)
            (groupChildren tables g))) =
          some (ElkGraphChild.group (groupNodeId g)
            (groupChildren tables g)) := by
        simp [h]
      rw [List.filterMap_cons, hred, List.filter_cons]
      simp only [hb, if_true, List.map_cons, List.filterMap_cons, topGroupId]
      exact congrArg (groupNodeId g :: ·) ih

theorem topGroupIds_eq (tables : List SchemaTable) (refs : List SchemaRef)
    (groups : List SchemaTableGroup) :
    (buildTopLevelChildren tables refs groups).filterMap topGroupId =
      (groups.filter fun g => !(groupChildren tables g).isEmpty).map
        groupNodeId := by
  rw [buildTopLevelChildren, List.filterMap_append]
  have h2 : (((ungroupedSorted tables refs groups).map fun t =>
      ElkGraphChild.table (buildTableElkNode t)).filterMap topGroupId) = [] := by
    rw [List.filterMap_map]
    exact filterMap_const_none _
  rw [h2, List.append_nil]
  exact filterMap_topGroupId_groups tables groups

/-- C10: for every schema in which identity keys are unique and each table
key occurs at most once across all group member lists (the data-model
invariants), the table-node ids submitted to the solver are exactly the
table keys, each exactly once (a permutation); no node id - group ids
included, given distinct group ids disjoint from the table keys - is
duplicated; a table whose key is assigned to a group appears inside that
group compound node, and an unassigned table appears as a top-level
child. -/
theorem tables_submitted_exactly_once (tables : List SchemaTable)
    (refs : List SchemaRef) (groups : List SchemaTableGroup)
    (hkeys : (tables.map tableNodeId).Nodup)
    (hmem : ∀ t ∈ tables,
      ((flatAssignments groups).map Prod.fst).count (tableNodeId t) ≤ 1)
    (hgids : (groups.map groupNodeId).Nodup)
    (hdisj : ∀ g ∈ groups, groupNodeId g ∉ tables.map tableNodeId) :
    allTableIds (buildTopLevelChildren tables refs groups)
        ~ tables.map tableNodeId ∧
    (allNodeIds (buildTopLevelChildren tables refs groups)).Nodup ∧
    (∀ t ∈ tables, ∀ g, tableToGroupGet groups (tableNodeId t) = some g →
      ElkGraphChild.group (groupNodeId g) (groupChildren tables g)
          ∈ buildTopLevelChildren tables refs groups ∧
      tableNodeId t ∈ (groupChildren tables g).map ElkTableNode.id) ∧
    (∀ t ∈ tables, tableToGroupGet groups (tableNodeId t) = none →
      ElkGraphChild.table (buildTableElkNode t)
          ∈ buildTopLevelChildren tables refs groups) := by
  have hgroupPart : ((groups.filterMap fun g =>
        let cs := groupChildren tables g
        if cs.isEmpty then none
        else some (ElkGraphChild.group (groupNodeId g) cs)).map
      childTableIds).flatten =
      ((flatAssignments groups).map Prod.fst).filter
        fun k => (tableMapGet tables k).isSome := by
    rw [filterMap_group_children_ids, flatten_groupChildren_ids]
  have hungroupPart : ((((ungroupedSorted tables refs groups).map fun t =>
        ElkGraphChild.table (buildTableElkNode t))).map childTableIds).flatten
      = (ungroupedSorted tables refs groups).map tableNodeId := by
    rw [List.map_map]
    have hcomp : (childTableIds ∘ fun t =>
        ElkGraphChild.table (buildTableElkNode t)) =
        fun t => [tableNodeId t] := by
      funext t
      rfl
    rw [hcomp, flatten_singletons]
  have hsplit : allTableIds (buildTopLevelChildren tables refs groups)
      = (((flatAssignments groups).map Prod.fst).filter
          fun k => (tableMapGet tables k).isSome)
        ++ (ungroupedSorted tables refs groups).map tableNodeId := by
    rw [buildTopLevelChildren, allTableIds, List.map_append,
      List.flatten_append, hgroupPart, hungroupPart]
  have hsort : ungroupedSorted tables refs groups
      ~ tables.filter fun t =>
          !(tableToGroupGet groups (tableNodeId t)).isSome :=
    List.mergeSort_perm _ _
  have hungroup2 : (ungroupedSorted tables refs groups).map tableNodeId
      ~ (tables.map tableNodeId).filter
          fun k => !(tableToGroupGet groups k).isSome := by
    refine (hsort.map tableNodeId).trans ?_
    rw [map_filter_comp tableNodeId
      (fun k => !(tableToGroupGet groups k).isSome) tables]
  have hfilterres : (((flatAssignments groups).map Prod.fst).filter
        fun k => (tableMapGet tables k).isSome)
      = ((flatAssignments groups).map Prod.fst).filter
          fun k => decide (k ∈ tables.map tableNodeId) := by
    apply List.filter_congr
    intro k _
    by_cases hk : k ∈ tables.map tableNodeId
    · rw [(tableMapGet_isSome_iff tables k).mpr hk]
      simp [hk]
    · have hfalse : (tableMapGet tables k).isSome = false := by
        rw [Bool.eq_false_iff]
        intro hh
        exact hk ((tableMapGet_isSome_iff tables k).mp hh)
      rw [hfalse]
      simp [hk]
  have hfilterground : ((tables.map tableNodeId).filter
        fun k => !(tableToGroupGet groups k).isSome)
      = (tables.map tableNodeId).filter
          fun k => !decide (k ∈ (flatAssignments groups).map Prod.fst) := by
    apply List.filter_congr
    intro k _
    by_cases hk : k ∈ (flatAssignments groups).map Prod.fst
    · rw [(tableToGroupGet_isSome_iff groups k).mpr hk]
      simp [hk]
    · have hfalse : (tableToGroupGet groups k).isSome = false := by
        rw [Bool.eq_false_iff]
        intro hh
        exact hk ((tableToGroupGet_isSome_iff groups k).mp hh)
      rw [hfalse]
      simp [hk]
  have hinter : (((flatAssignments groups).map Prod.fst).filter
        fun k => decide (k ∈ tables.map tableNodeId))
      ~ (tables.map tableNodeId).filter
          fun k => decide (k ∈ (flatAssignments groups).map Prod.fst) := by
    apply count_filter_mem_perm _ _ hkeys
    intro k hk
    obtain ⟨t, ht, rfl⟩ := List.mem_map.mp hk
    exact hmem t ht
  have hU : (ungroupedSorted tables refs groups).map tableNodeId
      ~ (tables.map tableNodeId).filter
          fun k => !decide (k ∈ (flatAssignments groups).map Prod.fst) :=
    hfilterground ▸ hungroup2
  have hperm : allTableIds (buildTopLevelChildren tables refs groups)
      ~ tables.map tableNodeId := by
    rw [hsplit, hfilterres]
    exact (hinter.append hU).trans
      (List.filter_append_perm
        (fun k => decide (k ∈ (flatAssignments groups).map Prod.fst))
        (tables.map tableNodeId))
  refine ⟨hperm, ?_, ?_, ?_⟩
  · refine ((allNodeIds_perm_decomp
      (buildTopLevelChildren tables refs groups)).nodup_iff).mpr ?_
    rw [List.nodup_append]
    refine ⟨?_, hperm.nodup_iff.mpr hkeys, ?_⟩
    · rw [topGroupIds_eq]
      exact ((List.filter_sublist _).map groupNodeId).nodup hgids
    · intro x hxF hxT
      rw [topGroupIds_eq] at hxF
      obtain ⟨g, hgmem, rfl⟩ := List.mem_map.mp hxF
      have hgin : g ∈ groups := (List.mem_filter.mp hgmem).1
      exact hdisj g hgin (hperm.mem_iff.mp hxT)
  · intro t ht g hg
    obtain ⟨hgin, m, hm, hmk⟩ := tableToGroupGet_mem groups (tableNodeId t) g hg
    have hres : (tableMapGet tables (tableNodeId t)).isSome = true :=
      (tableMapGet_isSome_iff tables (tableNodeId t)).mpr
        (List.mem_map_of_mem tableNodeId ht)
    have hidmem : tableNodeId t ∈
        (groupChildren tables g).map ElkTableNode.id := by
      rw [groupChildren_ids, List.mem_filter]
      exact ⟨hmk ▸ List.mem_map_of_mem memberKey hm, hres⟩
    have hne : ¬(groupChildren tables g).isEmpty = true := by
      intro hempty
      rw [List.isEmpty_iff] at hempty
      rw [hempty] at hidmem
      simp at hidmem
    refine ⟨?_, hidmem⟩
    rw [buildTopLevelChildren]
    apply List.mem_append_left
    apply List.mem_filterMap.mpr
    refine ⟨g, hgin, ?_⟩
    simp [hne]
  · intro t ht hnone
    have hfilt : t ∈ tables.filter fun t =>
        !(tableToGroupGet groups (tableNodeId t)).isSome := by
      rw [List.mem_filter]
      exact ⟨ht, by simp [hnone]⟩
    have hsorted : t ∈ ungroupedSorted tables refs groups :=
      hsort.mem_iff.mpr hfilt
    rw [buildTopLevelChildren]
    apply List.mem_append_right
    exact List.mem_map_of_mem _ hsorted

/-- Witness for C10: a concrete schema with one grouped and one ungrouped
table and one reference. -/
theorem tables_submitted_exactly_once_witness :
    allTableIds (buildTopLevelChildren [tableA, tableB] [sampleRef]
        [witnessGroup]) ~ [tableA, tableB].map tableNodeId :=
  (tables_submitted_exactly_once [tableA, tableB] [sampleRef] [witnessGroup]
    (by decide) (by decide) (by decide) (by decide)).1
